import Mathlib

/-! Verification of the HUDS menu scraper (api/common/huds_scraper.py,
api/common/week_utils.py, api/common/storage.py) against its specification.

The Python source is shallowly embedded: strings are lists of characters,
dictionaries with a fixed key set are association lists in insertion order,
the regular-expression passes of `_normalize_text` are implemented as
explicit scans with the same semantics, exceptions are `Except` values, and
the persisted files are an explicit store record threaded through
`scrape_and_store`.  Dates are modelled as day numbers in the proleptic
Gregorian calendar shifted so that day 0 is a Monday (Python's
`date.weekday()` is then `d % 7`, Monday = 0); `isoformat` is the identity
on these day numbers, which keeps the seven keys of the week document
distinct and ordered exactly as the ISO strings are. -/

namespace HUDS

/-- Python strings, embedded as lists of characters. -/
abbrev Str := List Char

/-- Literal conversion helper. -/
def str (s : String) : Str := s.data

/-- The whitespace class used by Python's `\s` and `str.strip()` (ASCII part
plus the non-breaking space; the scraper's inputs contain no other Unicode
whitespace). -/
def isSpace (ch : Char) : Bool :=
  ch == ' ' || ch == '\t' || ch == '\n' || ch == '\r' ||
    ch == Char.ofNat 11 || ch == Char.ofNat 12 || ch == Char.ofNat 160

/-- Python `str.lower()` restricted to the characters the scraper meets:
ASCII letters plus the accented E of "Entrée". -/
def pyLower : Char → Char
  | 'A' => 'a' | 'B' => 'b' | 'C' => 'c' | 'D' => 'd' | 'E' => 'e'
  | 'F' => 'f' | 'G' => 'g' | 'H' => 'h' | 'I' => 'i' | 'J' => 'j'
  | 'K' => 'k' | 'L' => 'l' | 'M' => 'm' | 'N' => 'n' | 'O' => 'o'
  | 'P' => 'p' | 'Q' => 'q' | 'R' => 'r' | 'S' => 's' | 'T' => 't'
  | 'U' => 'u' | 'V' => 'v' | 'W' => 'w' | 'X' => 'x' | 'Y' => 'y'
  | 'Z' => 'z' | 'É' => 'é'
  | c => c

/-- Lower-case a whole string. -/
def pyLowerStr (s : Str) : Str := s.map pyLower

/-- Case-insensitive character comparison (regex flag `re.I`). -/
def ciEq (a b : Char) : Bool := pyLower a == pyLower b

/-- `ciStartsWith m c`: the marker `m` is a case-insensitive prefix of `c`. -/
def ciStartsWith : Str → Str → Bool
  | [], _ => true
  | _ :: _, [] => false
  | m :: ms, c :: cs => ciEq m c && ciStartsWith ms cs

/-- The alternatives of the allergen/dietary/caloric regex in
`_normalize_text`, in the order they appear in the pattern. -/
def markers : List Str :=
  [str "contains", str "gf", str "v", str "vegan", str "vegetarian",
   str "halal", str "kosher", str "kcal", str "cal", str "soy", str "milk",
   str "egg", str "wheat", str "gluten", str "tree nuts", str "peanut",
   str "shellfish", str "fish", str "sesame"]

/-- One pass of `re.sub(r"\s+", " ", s)`: every maximal whitespace run
becomes a single space.  The flag records whether the previous character
was whitespace (i.e. whether we are inside a run). -/
def col : Bool → Str → Str
  | _, [] => []
  | prev, ch :: rest =>
    if isSpace ch then
      if prev then col true rest else ' ' :: col true rest
    else ch :: col false rest

/-- The run flag after feeding a string through `col`. -/
def flagAfter : Bool → Str → Bool
  | p, [] => p
  | _, ch :: rest => flagAfter (isSpace ch) rest

/-- Drop matching characters from the end of a list. -/
def trimEnd (p : Char → Bool) (l : Str) : Str :=
  ((l.reverse).dropWhile p).reverse

/-- Python `str.strip()`. -/
def stripWs (l : Str) : Str := trimEnd isSpace (l.dropWhile isSpace)

/-- The suffix just after the first `)` of a string, if any (where the
regex engine resumes after `[^)]*\)`). -/
def afterRparen : Str → Option Str
  | [] => none
  | ch :: rest => if ch = ')' then some rest else afterRparen rest

/-- The scan of
`re.sub(r"\((?:contains|gf|...)[^)]*\)", "", s, flags=re.I)`.  With the
flag down, at each `(` whose following text begins (case-insensitively)
with one of the markers and which is closed by a later `)`, start deleting
(flag up); other characters are copied.  With the flag up, characters are
deleted through the first `)`, after which scanning resumes. -/
def spGo : Bool → Str → Str
  | _, [] => []
  | true, ch :: rest => if ch == ')' then spGo false rest else spGo true rest
  | false, ch :: rest =>
    if ch == '(' && markers.any (fun m => ciStartsWith m rest)
        && (afterRparen rest).isSome then
      spGo true rest
    else ch :: spGo false rest

/-- One pass of the marker-parenthetical deletion regex. -/
def stripParens (l : Str) : Str := spGo false l

/-- The scan of `re.sub(r"\s{2,}", " ", s)`: a run of two or more
whitespace characters becomes a single space (flag up while inside such a
run); a lone whitespace character is kept as it is. -/
def c2go : Bool → Str → Str
  | true, [] => []
  | true, ch :: rest => if isSpace ch then c2go true rest else ch :: c2go false rest
  | false, [] => []
  | false, [ch] => [ch]
  | false, a :: b :: rest =>
    if isSpace a && isSpace b then ' ' :: c2go true rest
    else a :: c2go false (b :: rest)

/-- One pass of `re.sub(r"\s{2,}", " ", s)`. -/
def col2 (l : Str) : Str := c2go false l

/-- The characters removed at the ends by `.strip(" -•·,")`. -/
def isStrip (ch : Char) : Bool :=
  ch = ' ' ∨ ch = '-' ∨ ch = '•' ∨ ch = '·' ∨ ch = ','

/-- Python `s.strip(" -•·,")`. -/
def strip2 (l : Str) : Str := trimEnd isStrip (l.dropWhile isStrip)

/-- `_normalize_text` from huds_scraper.py: collapse whitespace and strip,
drop marker parentheticals, re-collapse double blanks and strip stray
punctuation. -/
def normalize_text (s : Str) : Str :=
  strip2 (col2 (stripParens (stripWs (col false s))))

/-- Python `s.replace("--", "")`: delete every non-overlapping occurrence
of a double dash, scanning left to right. -/
def removeDD : Str → Str
  | '-' :: '-' :: rest => removeDD rest
  | ch :: rest => ch :: removeDD rest
  | [] => []

/-- The trailing half of `re.sub(r"^-+|-+$", "", ·)`: Python's `$` matches
at the end of the string and also just before a final newline, so a dash
run in either position is deleted. -/
def stripDashesEnd (l : Str) : Str :=
  match l.reverse with
  | '\n' :: rest => trimEnd (fun ch => ch == '-') rest.reverse ++ ['\n']
  | _ => trimEnd (fun ch => ch == '-') l

/-- The heading normalization inside `_classify_category`: lower-case,
delete the leading and the trailing dash run (`re.sub(r"^-+|-+$", "", ·)`),
strip whitespace, delete every `--`, strip whitespace again. -/
def normHeading (s : Str) : Str :=
  stripWs (removeDD (stripWs (stripDashesEnd
    ((pyLowerStr s).dropWhile (fun ch => ch == '-')))))

/-- The chain of exact matches in `_classify_category`, applied to the
already-normalized heading. -/
def classifyNorm (cat : Str) : Option Str :=
  if cat = str "today's soup" then some (str "soups")
  else if cat = str "entrees" ∨ cat = str "entrée" ∨ cat = str "veg,vegan" then
    some (str "entrees")
  else if cat = str "starch and potatoes" then some (str "starch_potatoes")
  else if cat = str "vegetables" then some (str "vegetables")
  else if cat = str "desserts" then some (str "desserts")
  else if cat = str "delish" then some (str "delish")
  else none

/-- `_classify_category` from huds_scraper.py: map a station heading to one
of the six bucket names, or `none` (empty headings short-circuit to
`none`). -/
def classify_category (cat_raw : Str) : Option Str :=
  if cat_raw = [] then none
  else classifyNorm (normHeading cat_raw)

/-- `BUCKET_ORDER` from huds_scraper.py. -/
def BUCKET_ORDER : List Str :=
  [str "soups", str "entrees", str "starch_potatoes", str "vegetables",
   str "delish", str "desserts"]

/-- A meal's bucket map: a Python dict from bucket name to dish list,
embedded as an association list in insertion order. -/
abbrev MealAL := List (Str × List Str)

/-- Python dict assignment `m[k] = v`: update the value in place if the key
is present, append the pair otherwise. -/
def dictSet (m : MealAL) (k : Str) (v : List Str) : MealAL :=
  match m with
  | [] => [(k, v)]
  | (k', v') :: rest => if k' = k then (k, v) :: rest else (k', v') :: dictSet rest k v

/-- Python dict read `m[k]` (total here; every read in the scraper is of a
key created by the bucket-map initializer). -/
def dictGet (m : MealAL) (k : Str) : List Str :=
  match m with
  | [] => []
  | (k', v) :: rest => if k' = k then v else dictGet rest k

/-- The key list of a bucket map, in insertion order. -/
def dictKeys (m : MealAL) : List Str := m.map Prod.fst

/-- `_init_meal_bucket` from huds_scraper.py: all six buckets start empty;
when `include_delish` is false the delish entry is (re)assigned the empty
list — the key stays present. -/
def init_meal_bucket (include_delish : Bool) : MealAL :=
  let meal := BUCKET_ORDER.map (fun k => (k, ([] : List Str)))
  if !include_delish then dictSet meal (str "delish") [] else meal

/-- `_dedupe_preserve` from huds_scraper.py: keep the first occurrence of
each non-empty (truthy) entry, in order; `seen` is the accumulating set. -/
def dedupeAux (seen : List Str) : List Str → List Str
  | [] => []
  | x :: rest =>
    if x ≠ [] ∧ x ∉ seen then x :: dedupeAux (x :: seen) rest
    else dedupeAux seen rest

/-- `_dedupe_preserve` from huds_scraper.py. -/
def dedupe_preserve (l : List Str) : List Str := dedupeAux [] l

/-- The elements `_parse_meal_container` iterates over, in document order:
`shortmenucats` category headers and `shortmenurecipes` dish entries, each
carrying its extracted text. -/
inductive MElem where
  | cat (t : Str)
  | recipe (t : Str)
deriving DecidableEq

/-- The body of `_parse_meal_container`'s loop: a category header replaces
the current bucket by its classification; a dish entry, while a bucket is
active, is normalized and appended to that bucket unless it normalizes to
the empty string.  (The dietary-flag icons the source also extracts are
never used for the dish name and are not modelled.) -/
def walk (cur : Option Str) (m : MealAL) : List MElem → MealAL
  | [] => m
  | MElem.cat t :: rest => walk (classify_category t) m rest
  | MElem.recipe t :: rest =>
    match cur with
    | none => walk none m rest
    | some b =>
      let dish := normalize_text t
      if dish = [] then walk (some b) m rest
      else walk (some b) (dictSet m b (dictGet m b ++ [dish])) rest

/-- The final lines of `_parse_meal_container`: deduplicate every bucket,
and when the meal is Dinner force the delish bucket to the empty list. -/
def finishMeal (meal_name : Str) (walked : MealAL) : MealAL :=
  if pyLowerStr meal_name = str "dinner" then
    dictSet (walked.map (fun kv => (kv.1, dedupe_preserve kv.2))) (str "delish") []
  else walked.map (fun kv => (kv.1, dedupe_preserve kv.2))

/-- `_parse_meal_container` from huds_scraper.py: walk the elements in
document order, deduplicate every bucket, and for Dinner force the delish
bucket to the empty list. -/
def parse_meal_container (meal_name : Str) (elems : List MElem) : MealAL :=
  finishMeal meal_name (walk none (BUCKET_ORDER.map (fun k => (k, ([] : List Str)))) elems)

/-- A day's parsed menu: the two meals the scraper persists. -/
structure DayMenu where
  lunch : MealAL
  dinner : MealAL
deriving DecidableEq

/-- `parse_day` from huds_scraper.py.  The markup location of the meal
columns is abstracted into an optional element list per meal (`none` when
the page has no such column); the walk itself is modelled faithfully. -/
def parse_day (lunchElems dinnerElems : Option (List MElem)) : DayMenu :=
  { lunch :=
      match lunchElems with
      | some es => parse_meal_container (str "Lunch") es
      | none => init_meal_bucket true
    dinner :=
      match dinnerElems with
      | some es => parse_meal_container (str "Dinner") es
      | none => init_meal_bucket false }

/-! Week assembly (week_utils.py and `parse_week`).  Dates are day numbers
with day 0 a Monday, so Python's `date.weekday()` is `d % 7`. -/

/-- `start_of_week` from week_utils.py: the Monday of `d`'s week. -/
def start_of_week (d : Nat) : Nat := d - d % 7

/-- `end_of_week` from week_utils.py: the Sunday of `d`'s week. -/
def end_of_week (d : Nat) : Nat := start_of_week d + 6

/-- `week_date_list` from week_utils.py: the seven days from Monday. -/
def week_date_list (d : Nat) : List Nat :=
  (List.range 7).map (fun i => start_of_week d + i)

/-- A Python exception as `parse_week` distinguishes them: a `ScrapeError`
carrying its `kind` string, or any other exception. -/
inductive PyErr where
  | scrape (kind : Str)
  | otherExc
deriving DecidableEq

/-- The assembled week document (`out` in `parse_week`). -/
structure WeekDoc where
  week_start : Nat
  week_end : Nat
  generated_at : Str
  meals : List (Nat × DayMenu)
deriving DecidableEq

/-- The empty day substituted when a day's fetch or parse raises
`ScrapeError`. -/
def emptyDayMenu : DayMenu :=
  { lunch := init_meal_bucket true, dinner := init_meal_bucket false }

/-- `any(day_data[meal][bucket] for meal in ("lunch","dinner") for bucket
in BUCKET_ORDER)`. -/
def hasDish (day : DayMenu) : Bool :=
  BUCKET_ORDER.any (fun b => !(dictGet day.lunch b).isEmpty) ||
    BUCKET_ORDER.any (fun b => !(dictGet day.dinner b).isEmpty)

/-- The per-day loop of `parse_week`: `fp d` is the combined
fetch-and-parse of day `d` (it returns the day's menu or raises).  A
`ScrapeError` is caught and the empty day substituted; any other exception
propagates and aborts the loop. -/
def parse_week_days (fp : Nat → Except PyErr DayMenu) :
    List Nat → Except PyErr (List (Nat × DayMenu))
  | [] => .ok []
  | d :: ds =>
    match fp d with
    | .ok day => (parse_week_days fp ds).map (fun tl => (d, day) :: tl)
    | .error (.scrape _) => (parse_week_days fp ds).map (fun tl => (d, emptyDayMenu) :: tl)
    | .error .otherExc => .error .otherExc

/-- `parse_week` from huds_scraper.py, parametrized by the per-day
fetch-and-parse, the current date and the `generated_at` timestamp: after
the seven days are attempted, raise `ScrapeError("parse_failed", ...)` if
no dish was found anywhere, else return the document. -/
def parse_week (fp : Nat → Except PyErr DayMenu) (today : Nat) (now : Str) :
    Except PyErr WeekDoc :=
  match parse_week_days fp (week_date_list today) with
  | .error e => .error e
  | .ok entries =>
    if entries.any (fun e => hasDish e.2) then
      .ok { week_start := start_of_week today, week_end := end_of_week today,
            generated_at := now, meals := entries }
    else .error (.scrape (str "parse_failed"))

/-! Storage (storage.py) and `scrape_and_store`. -/

/-- The status record written by `scrape_and_store`. -/
structure Status where
  last_scrape_ok : Bool
  error : Option Str
  updated_at : Str
deriving DecidableEq

/-- The persisted files: the week document and the status record. -/
structure Store where
  week : Option WeekDoc
  status : Option Status
deriving DecidableEq

/-- `scrape_and_store` from huds_scraper.py: on success write the week
document then an ok status; on a `ScrapeError` write only a failed status
carrying the error kind and re-raise; any other exception propagates with
nothing written. -/
def scrape_and_store (fp : Nat → Except PyErr DayMenu) (today : Nat) (now : Str)
    (st : Store) : Except PyErr WeekDoc × Store :=
  match parse_week fp today now with
  | .ok data =>
    (.ok data, { week := some data,
                 status := some { last_scrape_ok := true, error := none, updated_at := now } })
  | .error (.scrape k) =>
    (.error (.scrape k),
     { st with status := some { last_scrape_ok := false, error := some k, updated_at := now } })
  | .error .otherExc => (.error .otherExc, st)

/-! Basic dictionary lemmas. -/

theorem dictGet_dictSet (m : MealAL) (k : Str) (v : List Str) :
    dictGet (dictSet m k v) k = v := by
  induction m with
  | nil => simp [dictSet, dictGet]
  | cons kv rest ih =>
    obtain ⟨k', v'⟩ := kv
    by_cases h : k' = k
    · simp [dictSet, dictGet, h]
    · simp [dictSet, dictGet, h, ih]

theorem dictKeys_dictSet (m : MealAL) (k : Str) (v : List Str)
    (hk : k ∈ dictKeys m) : dictKeys (dictSet m k v) = dictKeys m := by
  induction m with
  | nil => simp [dictKeys] at hk
  | cons kv rest ih =>
    obtain ⟨k', v'⟩ := kv
    by_cases h : k' = k
    · simp [dictSet, dictKeys, h]
    · have hk' : k ∈ dictKeys rest := by
        simp [dictKeys] at hk
        rcases hk with hk | hk
        · exact absurd hk.symm h
        · simpa [dictKeys] using hk
      simp [dictSet, dictKeys, h]
      simpa [dictKeys] using ih hk'

theorem dictKeys_mapValues (m : MealAL) (f : List Str → List Str) :
    dictKeys (m.map (fun kv => (kv.1, f kv.2))) = dictKeys m := by
  simp [dictKeys, List.map_map, Function.comp_def]

theorem classifyNorm_mem (c b : Str) (h : classifyNorm c = some b) :
    b ∈ BUCKET_ORDER := by
  unfold classifyNorm at h
  split at h
  · injection h with h; subst h; decide
  · split at h
    · injection h with h; subst h; decide
    · split at h
      · injection h with h; subst h; decide
      · split at h
        · injection h with h; subst h; decide
        · split at h
          · injection h with h; subst h; decide
          · split at h
            · injection h with h; subst h; decide
            · exact absurd h (by simp)

theorem classify_mem (t b : Str) (h : classify_category t = some b) :
    b ∈ BUCKET_ORDER := by
  unfold classify_category at h
  split at h
  · exact absurd h (by simp)
  · exact classifyNorm_mem _ b h

theorem walk_keys (es : List MElem) : ∀ (cur : Option Str) (m : MealAL),
    (∀ b, cur = some b → b ∈ dictKeys m) → dictKeys m = BUCKET_ORDER →
    dictKeys (walk cur m es) = BUCKET_ORDER := by
  induction es with
  | nil => intro cur m _ hm; simpa [walk] using hm
  | cons e rest ih =>
    intro cur m hcur hm
    cases e with
    | cat t =>
      simp only [walk]
      refine ih _ m ?_ hm
      intro b hb
      rw [hm]
      exact classify_mem t b hb
    | recipe t =>
      cases cur with
      | none => simpa only [walk] using ih none m (by simp) hm
      | some b =>
        have hb : b ∈ dictKeys m := hcur b rfl
        simp only [walk]
        by_cases hd : normalize_text t = []
        · simp only [hd, if_pos]
          exact ih _ m hcur hm
        · simp only [hd, if_neg, ite_false]
          refine ih _ _ ?_ ?_
          · intro b' hb'
            have hb'' : b = b' := by injection hb'
            rw [dictKeys_dictSet m b _ hb, ← hb'']
            exact hb
          · rw [dictKeys_dictSet m b _ hb]
            exact hm

theorem parse_meal_container_keys (mn : Str) (es : List MElem) :
    dictKeys (parse_meal_container mn es) = BUCKET_ORDER := by
  unfold parse_meal_container finishMeal
  have h0 : dictKeys (BUCKET_ORDER.map (fun k => (k, ([] : List Str)))) = BUCKET_ORDER := by
    simp [dictKeys, List.map_map, Function.comp_def]
  have h1 := walk_keys es none _ (by simp) h0
  have h2 : dictKeys ((walk none (BUCKET_ORDER.map (fun k => (k, ([] : List Str)))) es).map
      (fun kv => (kv.1, dedupe_preserve kv.2))) = BUCKET_ORDER := by
    rw [dictKeys_mapValues]; exact h1
  split
  · rw [dictKeys_dictSet _ _ _ (by rw [h2]; decide)]
    exact h2
  · exact h2

/-- Claim C4.  For every parsed day — whatever the markup contained,
including a delish station under Dinner — the dinner meal's delish bucket
is the empty list; only lunch can carry delish entries. -/
theorem c4_dinner_delish_empty (lunchElems dinnerElems : Option (List MElem)) :
    dictGet (parse_day lunchElems dinnerElems).dinner (str "delish") = [] := by
  cases dinnerElems with
  | none => simp only [parse_day]; decide
  | some es =>
    simp only [parse_day, parse_meal_container, finishMeal]
    rw [if_pos (by decide)]
    exact dictGet_dictSet _ _ _

/-- Claim C5 (amended).  Every DayMenu has both meals, and each meal's
bucket map has exactly the six bucket keys in the fixed order — the dinner
map keeps the delish key too (holding the empty list), it is not removed. -/
theorem c5_daymenu_keys (lunchElems dinnerElems : Option (List MElem)) :
    dictKeys (parse_day lunchElems dinnerElems).lunch = BUCKET_ORDER ∧
    dictKeys (parse_day lunchElems dinnerElems).dinner = BUCKET_ORDER := by
  constructor
  · cases lunchElems with
    | none => simp only [parse_day]; decide
    | some es => simpa only [parse_day] using parse_meal_container_keys (str "Lunch") es
  · cases dinnerElems with
    | none => simp only [parse_day]; decide
    | some es => simpa only [parse_day] using parse_meal_container_keys (str "Dinner") es

/-- Claim C5, counterexample to the claim as stated: the dinner bucket map
of a parsed day does have a `delish` key (with the empty list as value) and
six keys in total, not five. -/
theorem c5_counterexample :
    str "delish" ∈ dictKeys (parse_day none none).dinner ∧
    (dictKeys (parse_day none none).dinner).length = 6 := by decide

/-- Claim C9.  When `parse_week` fails with a `ScrapeError` (in particular
the whole-week `parse_failed`), `scrape_and_store` leaves the persisted
week document untouched, writes a failed status carrying the error kind
and the fresh timestamp, and re-raises; the week document is written only
when assembly succeeds (an ok status is then written too); a non-ScrapeError
exception leaves the whole store untouched. -/
theorem c9_scrape_and_store_frame (fp : Nat → Except PyErr DayMenu) (today : Nat)
    (now : Str) (st : Store) :
    (∀ k, parse_week fp today now = .error (.scrape k) →
      (scrape_and_store fp today now st).2.week = st.week ∧
      (scrape_and_store fp today now st).2.status =
        some { last_scrape_ok := false, error := some k, updated_at := now } ∧
      (scrape_and_store fp today now st).1 = .error (.scrape k)) ∧
    (∀ data, parse_week fp today now = .ok data →
      (scrape_and_store fp today now st).2.week = some data ∧
      (scrape_and_store fp today now st).2.status =
        some { last_scrape_ok := true, error := none, updated_at := now }) ∧
    (parse_week fp today now = .error .otherExc →
      (scrape_and_store fp today now st).2 = st) := by
  refine ⟨?_, ?_, ?_⟩
  · intro k h
    simp [scrape_and_store, h]
  · intro data h
    simp [scrape_and_store, h]
  · intro h
    simp [scrape_and_store, h]

/-- A previously persisted week document for the C9 witness. -/
def prevDoc : WeekDoc :=
  { week_start := 0, week_end := 6, generated_at := [], meals := [] }

/-- A fetch-and-parse stub on which every day raises
`ScrapeError("fetch_failed", ...)`, so the week assembly fails with
`parse_failed`. -/
def allFailFp : Nat → Except PyErr DayMenu :=
  fun _ => .error (.scrape (str "fetch_failed"))

/-- Witness for C9: on a concrete run whose assembly fails with
`parse_failed`, the stored week document is exactly the previous one and
the status records the failure. -/
theorem c9_witness :
    (scrape_and_store allFailFp 0 [] { week := some prevDoc, status := none }).2.week =
        some prevDoc ∧
    (scrape_and_store allFailFp 0 [] { week := some prevDoc, status := none }).2.status =
      some { last_scrape_ok := false, error := some (str "parse_failed"), updated_at := [] } ∧
    (scrape_and_store allFailFp 0 [] { week := some prevDoc, status := none }).1 =
      .error (.scrape (str "parse_failed")) :=
  (c9_scrape_and_store_frame allFailFp 0 [] { week := some prevDoc, status := none }).1
    (str "parse_failed") (by rfl)

/-! Claim C8: the deduplication law. -/

/-- The first-occurrence dedup described by the specification: keep an
entry iff it has not been seen before, preserving order. -/
def firstOccSpec (seen : List Str) : List Str → List Str
  | [] => []
  | x :: rest =>
    if x ∈ seen then firstOccSpec seen rest else x :: firstOccSpec (x :: seen) rest

theorem dedupeAux_eq_firstOccSpec (l : List Str) : ∀ seen,
    (∀ x ∈ l, x ≠ []) → dedupeAux seen l = firstOccSpec seen l := by
  induction l with
  | nil => intro seen _; rfl
  | cons x rest ih =>
    intro seen h
    have hx : x ≠ [] := h x (by simp)
    have hrest : ∀ y ∈ rest, y ≠ [] := fun y hy => h y (by simp [hy])
    by_cases hs : x ∈ seen
    · simp [dedupeAux, firstOccSpec, hx, hs, ih _ hrest]
    · simp [dedupeAux, firstOccSpec, hx, hs, ih _ hrest]

theorem firstOccSpec_length (l : List Str) : ∀ seen : List Str,
    (firstOccSpec seen l).length = (l.toFinset \ seen.toFinset).card := by
  induction l with
  | nil => intro seen; simp [firstOccSpec]
  | cons x rest ih =>
    intro seen
    by_cases hs : x ∈ seen
    · rw [show firstOccSpec seen (x :: rest) = firstOccSpec seen rest from by
        simp [firstOccSpec, hs]]
      rw [ih seen]
      congr 1
      rw [List.toFinset_cons, Finset.insert_sdiff_of_mem]
      simpa using hs
    · rw [show firstOccSpec seen (x :: rest) = x :: firstOccSpec (x :: seen) rest from by
        simp [firstOccSpec, hs]]
      rw [List.length_cons, ih (x :: seen)]
      rw [List.toFinset_cons, List.toFinset_cons]
      have e1 : rest.toFinset \ insert x seen.toFinset
          = (rest.toFinset \ seen.toFinset).erase x := by
        ext y
        by_cases hy : y = x
        · subst hy; simp
        · simp [hy]
      have e2 : insert x rest.toFinset \ seen.toFinset
          = insert x ((rest.toFinset \ seen.toFinset).erase x) := by
        ext y
        by_cases hy : y = x
        · subst hy; simp [hs]
        · simp [hy]
      rw [e1, e2, Finset.card_insert_of_not_mem (Finset.not_mem_erase _ _)]

theorem dedupeAux_sublist (l : List Str) : ∀ seen, (dedupeAux seen l).Sublist l := by
  induction l with
  | nil => intro seen; simp [dedupeAux]
  | cons x rest ih =>
    intro seen
    unfold dedupeAux
    split
    · exact (ih (x :: seen)).cons₂ x
    · exact (ih seen).cons x

theorem mem_dedupeAux (l : List Str) : ∀ seen x, x ∈ dedupeAux seen l → x ∉ seen := by
  induction l with
  | nil => intro seen x hx; simp [dedupeAux] at hx
  | cons y rest ih =>
    intro seen x hx
    unfold dedupeAux at hx
    split at hx
    · rename_i hy
      rcases List.mem_cons.mp hx with rfl | hx
      · exact hy.2
      · intro hs
        exact ih (y :: seen) x hx (by simp [hs])
    · exact ih seen x hx

theorem dedupeAux_nodup (l : List Str) : ∀ seen, (dedupeAux seen l).Nodup := by
  induction l with
  | nil => intro seen; simp [dedupeAux]
  | cons x rest ih =>
    intro seen
    unfold dedupeAux
    split
    · refine List.nodup_cons.mpr ⟨?_, ih (x :: seen)⟩
      intro hx
      exact mem_dedupeAux rest (x :: seen) x hx (by simp)
    · exact ih seen

/-- Claim C8.  On a bucket list whose entries are non-empty (as every
post-normalization bucket entry is), `_dedupe_preserve` is exactly the
first-occurrence dedup: it keeps the first occurrence of each distinct
value, preserves first-seen order (the output is a duplicate-free sublist
of the input), and its length is the number of distinct values. -/
theorem c8_dedupe_law (l : List Str) (h : ∀ x ∈ l, x ≠ []) :
    dedupe_preserve l = firstOccSpec [] l ∧
    (dedupe_preserve l).length = l.toFinset.card ∧
    (dedupe_preserve l).Sublist l ∧
    (dedupe_preserve l).Nodup := by
  refine ⟨dedupeAux_eq_firstOccSpec l [] h, ?_, dedupeAux_sublist l [], dedupeAux_nodup l []⟩
  rw [dedupe_preserve, dedupeAux_eq_firstOccSpec l [] h, firstOccSpec_length l []]
  simp

/-- Witness for C8 on a concrete bucket list with repeats. -/
theorem c8_witness :
    dedupe_preserve [str "Cake", str "Pie", str "Cake", str "Pie", str "Flan"] =
        firstOccSpec [] [str "Cake", str "Pie", str "Cake", str "Pie", str "Flan"] ∧
    (dedupe_preserve [str "Cake", str "Pie", str "Cake", str "Pie", str "Flan"]).length =
      ([str "Cake", str "Pie", str "Cake", str "Pie", str "Flan"] : List Str).toFinset.card ∧
    (dedupe_preserve [str "Cake", str "Pie", str "Cake", str "Pie", str "Flan"]).Sublist
      [str "Cake", str "Pie", str "Cake", str "Pie", str "Flan"] ∧
    (dedupe_preserve [str "Cake", str "Pie", str "Cake", str "Pie", str "Flan"]).Nodup :=
  c8_dedupe_law [str "Cake", str "Pie", str "Cake", str "Pie", str "Flan"] (by decide)

/-! Claim C2: the classifier's exact-match table. -/

/-- The domain of the classifier's exact-match table. -/
def tableDomain : List Str :=
  [str "today's soup", str "entrees", str "entrée", str "veg,vegan",
   str "starch and potatoes", str "vegetables", str "desserts", str "delish"]

theorem classifyNorm_none (c : Str) (h : c ∉ tableDomain) : classifyNorm c = none := by
  have h1 : c ≠ str "today's soup" := fun hc => h (by rw [hc]; decide)
  have h2 : ¬(c = str "entrees" ∨ c = str "entrée" ∨ c = str "veg,vegan") := by
    rintro (hc | hc | hc) <;> exact h (by rw [hc]; decide)
  have h3 : c ≠ str "starch and potatoes" := fun hc => h (by rw [hc]; decide)
  have h4 : c ≠ str "vegetables" := fun hc => h (by rw [hc]; decide)
  have h5 : c ≠ str "desserts" := fun hc => h (by rw [hc]; decide)
  have h6 : c ≠ str "delish" := fun hc => h (by rw [hc]; decide)
  simp [classifyNorm, h1, h2, h3, h4, h5, h6]

/-- Claim C2 (amended).  Every heading in the table (after the code's full
normalization, which also deletes every internal `--`) classifies to its
documented bucket; the near-miss stations return `none`; and every heading
whose normalized form is outside the table returns `none`. -/
theorem c2_classify_table (s : Str) :
    classify_category (str "today's soup") = some (str "soups") ∧
    classify_category (str "entrees") = some (str "entrees") ∧
    classify_category (str "entrée") = some (str "entrees") ∧
    classify_category (str "veg,vegan") = some (str "entrees") ∧
    classify_category (str "starch and potatoes") = some (str "starch_potatoes") ∧
    classify_category (str "vegetables") = some (str "vegetables") ∧
    classify_category (str "desserts") = some (str "desserts") ∧
    classify_category (str "delish") = some (str "delish") ∧
    classify_category (str "Salad Bar") = none ∧
    classify_category (str "Grill") = none ∧
    classify_category (str "Halal") = none ∧
    (normHeading s ∉ tableDomain → classify_category s = none) := by
  refine ⟨by decide, by decide, by decide, by decide, by decide, by decide, by decide,
    by decide, by decide, by decide, by decide, ?_⟩
  intro h
  unfold classify_category
  split
  · rfl
  · exact classifyNorm_none _ h

/-- Witness for C2's universal part at a concrete out-of-table heading. -/
theorem c2_witness : classify_category (str "Brown Rice Station") = none :=
  (c2_classify_table (str "Brown Rice Station")).2.2.2.2.2.2.2.2.2.2.2 (by decide)

/-- Modelled from the claim's words: the normalization the claim ascribes
to the classifier — lower-case, strip the leading and trailing dash runs,
strip surrounding whitespace — without the code's deletion of internal
`--` occurrences. -/
def claimNormHeading (s : Str) : Str :=
  stripWs (trimEnd (fun ch => ch == '-') ((pyLowerStr s).dropWhile (fun ch => ch == '-')))

/-- Counterexample to C2 as stated: the heading "vegeta--bles" normalizes
(in the claim's sense) to a string outside the table, so the claim says
`classify` returns `none`; the code deletes the internal `--` and returns
the vegetables bucket. -/
theorem c2_counterexample :
    classify_category (str "vegeta--bles") = some (str "vegetables") ∧
    claimNormHeading (str "vegeta--bles") ∉ tableDomain := by decide

/-! Claim C3: dish entries under no recognized bucket are dropped. -/

/-- The current-bucket update of the walk. -/
def curStep (cur : Option Str) : MElem → Option Str
  | MElem.cat t => classify_category t
  | MElem.recipe _ => cur

/-- The current bucket after a list of elements. -/
def curAfter (cur : Option Str) (l : List MElem) : Option Str := l.foldl curStep cur

/-- The classification of the most recent category header of `l` (`none`
when there is no header, or the last one is unrecognized). -/
def lastCatClass (l : List MElem) : Option Str := curAfter none l

theorem walk_append (es fs : List MElem) : ∀ (cur : Option Str) (m : MealAL),
    walk cur m (es ++ fs) = walk (curAfter cur es) (walk cur m es) fs := by
  induction es with
  | nil => intro cur m; rfl
  | cons e rest ih =>
    intro cur m
    cases e with
    | cat t =>
      simp only [List.cons_append, walk, curAfter, List.foldl_cons, curStep]
      exact ih _ m
    | recipe t =>
      cases cur with
      | none =>
        simp only [List.cons_append, walk, curAfter, List.foldl_cons, curStep]
        exact ih none m
      | some b =>
        simp only [List.cons_append, walk, curAfter, List.foldl_cons, curStep]
        by_cases hd : normalize_text t = []
        · simp only [hd, if_pos]
          exact ih _ m
        · simp only [hd, if_neg, ite_false]
          exact ih _ _

/-- Claim C3.  A dish entry whose preceding headers leave no active bucket
(no header yet, or the most recent header classified to `none`) is
discarded: the parsed meal is the same as if the entry were absent.  In
particular a "Salad Bar" header followed by two dish entries produces no
entry in any bucket. -/
theorem c3_unmapped_recipes_dropped (mn : Str) (pre post : List MElem) (t : Str)
    (h : lastCatClass pre = none) :
    parse_meal_container mn (pre ++ MElem.recipe t :: post) =
      parse_meal_container mn (pre ++ post) ∧
    parse_meal_container (str "Lunch")
      [MElem.cat (str "Salad Bar"), MElem.recipe (str "Caesar Salad"),
       MElem.recipe (str "Greek Salad")] = BUCKET_ORDER.map (fun k => (k, [])) := by
  constructor
  · unfold parse_meal_container
    congr 1
    rw [walk_append, walk_append, show curAfter none pre = none from h]
    rfl
  · decide

/-- Witness for C3: dropping the dish entry after the unrecognized
"Salad Bar" header leaves the parsed meal unchanged. -/
theorem c3_witness :
    parse_meal_container (str "Lunch")
      ([MElem.cat (str "Salad Bar")] ++
        MElem.recipe (str "Caesar Salad") :: [MElem.recipe (str "Greek Salad")]) =
      parse_meal_container (str "Lunch")
        ([MElem.cat (str "Salad Bar")] ++ [MElem.recipe (str "Greek Salad")]) :=
  (c3_unmapped_recipes_dropped (str "Lunch") [MElem.cat (str "Salad Bar")]
    [MElem.recipe (str "Greek Salad")] (str "Caesar Salad") (by decide)).1

/-! Claims C1 and C6: the week assembler. -/

/-- The day a given fetch-and-parse result contributes to the document
when only `ScrapeError`s occur: the parsed day, or the empty day on
failure. -/
def dayResult (fp : Nat → Except PyErr DayMenu) (d : Nat) : DayMenu :=
  match fp d with
  | .ok day => day
  | .error _ => emptyDayMenu

/-- Whether a fetch-and-parse result is an exception other than
`ScrapeError` (the kind `parse_week` does not catch). -/
def isOtherErr : Except PyErr DayMenu → Bool
  | .error .otherExc => true
  | _ => false

theorem parse_week_days_ok (fp : Nat → Except PyErr DayMenu) (ds : List Nat)
    (h : ∀ d ∈ ds, isOtherErr (fp d) = false) :
    parse_week_days fp ds = .ok (ds.map (fun d => (d, dayResult fp d))) := by
  induction ds with
  | nil => rfl
  | cons d rest ih =>
    have hd := h d (by simp)
    have hrest : ∀ x ∈ rest, isOtherErr (fp x) = false := fun x hx => h x (by simp [hx])
    cases hfp : fp d with
    | ok day => simp [parse_week_days, hfp, ih hrest, dayResult, Except.map]
    | error e =>
      cases e with
      | scrape k => simp [parse_week_days, hfp, ih hrest, dayResult, Except.map]
      | otherExc => simp [isOtherErr, hfp] at hd

theorem parse_week_days_fst (fp : Nat → Except PyErr DayMenu) :
    ∀ (ds : List Nat) (entries : List (Nat × DayMenu)),
      parse_week_days fp ds = .ok entries → entries.map Prod.fst = ds := by
  intro ds
  induction ds with
  | nil => intro entries h; simp [parse_week_days] at h; simp [← h]
  | cons d rest ih =>
    intro entries h
    cases hfp : fp d with
    | ok day =>
      rw [parse_week_days, hfp] at h
      cases hrest : parse_week_days fp rest with
      | ok tl =>
        rw [hrest] at h
        simp only [Except.map] at h
        injection h with h
        subst h
        simp [ih tl hrest]
      | error e => rw [hrest] at h; simp [Except.map] at h
    | error e =>
      cases e with
      | scrape k =>
        rw [parse_week_days, hfp] at h
        cases hrest : parse_week_days fp rest with
        | ok tl =>
          rw [hrest] at h
          simp only [Except.map] at h
          injection h with h
          subst h
          simp [ih tl hrest]
        | error e' => rw [hrest] at h; simp [Except.map] at h
      | otherExc => rw [parse_week_days, hfp] at h; simp at h

/-- Claim C1 (amended).  When every per-day failure is a `ScrapeError`
(fetch failure or any `ScrapeError` from parsing), each failing day is
replaced by the empty DayMenu and the remaining days are still attempted;
the whole-week `ScrapeError("parse_failed", ...)` is raised iff, after all
seven days, no dish exists anywhere; otherwise the document with the
substituted days is returned.  (A non-`ScrapeError` exception instead
aborts the week — see the counterexample.) -/
theorem c1_parse_week_substitution (fp : Nat → Except PyErr DayMenu) (today : Nat)
    (now : Str) (h : ∀ d ∈ week_date_list today, isOtherErr (fp d) = false) :
    (parse_week fp today now = .error (.scrape (str "parse_failed")) ↔
      ∀ d ∈ week_date_list today, hasDish (dayResult fp d) = false) ∧
    ((∃ d ∈ week_date_list today, hasDish (dayResult fp d) = true) →
      parse_week fp today now =
        .ok { week_start := start_of_week today, week_end := end_of_week today,
              generated_at := now,
              meals := (week_date_list today).map (fun d => (d, dayResult fp d)) }) := by
  have hdays := parse_week_days_ok fp (week_date_list today) h
  constructor
  · rw [parse_week, hdays]
    by_cases hany : (((week_date_list today).map (fun d => (d, dayResult fp d))).any
        (fun e => hasDish e.2)) = true
    · simp only [hany, if_true, ite_true]
      constructor
      · intro hcontra; exact absurd hcontra (by simp)
      · intro hall
        exfalso
        rcases List.any_eq_true.mp hany with ⟨e, he, hdish⟩
        rcases List.mem_map.mp he with ⟨d, hd, rfl⟩
        rw [hall d hd] at hdish
        exact Bool.false_ne_true hdish
    · simp only [hany, if_false, ite_false]
      constructor
      · intro _ d hd
        by_contra hne
        have htrue : hasDish (dayResult fp d) = true := by
          cases hb : hasDish (dayResult fp d)
          · exact absurd hb hne
          · rfl
        exact hany (List.any_eq_true.mpr
          ⟨(d, dayResult fp d), List.mem_map.mpr ⟨d, hd, rfl⟩, htrue⟩)
      · intro _; rfl
  · rintro ⟨d, hd, hdish⟩
    rw [parse_week, hdays]
    have hany : (((week_date_list today).map (fun d => (d, dayResult fp d))).any
        (fun e => hasDish e.2)) = true :=
      List.any_eq_true.mpr ⟨(d, dayResult fp d), List.mem_map.mpr ⟨d, hd, rfl⟩, hdish⟩
    simp only [hany, if_true, ite_true]

/-- A parsed day with one dish, used by the witnesses: a Lunch column with
a recognized soup header and one dish entry. -/
def oneDishDay : DayMenu :=
  parse_day (some [MElem.cat (str "-- Today's Soup --"),
                   MElem.recipe (str "Tomato Basil (contains dairy)")]) none

/-- A fetch-and-parse stub whose Monday raises `ScrapeError("fetch_failed",
...)` while the other days succeed with one dish. -/
def mondayFailFp : Nat → Except PyErr DayMenu :=
  fun d => if d = 0 then .error (.scrape (str "fetch_failed")) else .ok oneDishDay

/-- Witness for C1: with Monday's fetch failing (`ScrapeError`) and the
other days carrying a dish, the week succeeds with the empty day
substituted for Monday. -/
theorem c1_witness :
    parse_week mondayFailFp 0 [] =
      .ok { week_start := start_of_week 0, week_end := end_of_week 0,
            generated_at := [],
            meals := (week_date_list 0).map (fun d => (d, dayResult mondayFailFp d)) } :=
  (c1_parse_week_substitution mondayFailFp 0 [] (by decide)).2 ⟨1, by decide, by decide⟩

/-- A fetch-and-parse stub whose Monday raises an exception that is not a
`ScrapeError`, while the other days succeed with one dish. -/
def mondayOtherExcFp : Nat → Except PyErr DayMenu :=
  fun d => if d = 0 then .error .otherExc else .ok oneDishDay

/-- Counterexample to C1 as stated: with Monday failing on an exception
that is not a `ScrapeError` and every other day carrying dishes, the claim
predicts an assembled document with an empty Monday; the code's
`except ScrapeError` does not catch it, so the whole week aborts with that
exception and no document (and no `parse_failed`) results. -/
theorem c1_counterexample : parse_week mondayOtherExcFp 0 [] = .error .otherExc := by
  rfl

/-- Claim C6.  Whenever the assembler returns a document, its `week_start`
is the Monday of the reference date's week (day number divisible by 7, at
most the reference date, less than seven days before it), `week_end` is
the Sunday six days later, and the meals mapping is keyed by exactly the
seven consecutive dates from `week_start`, in Monday-first order. -/
theorem c6_week_bounds (fp : Nat → Except PyErr DayMenu) (today : Nat) (now : Str)
    (w : WeekDoc) (h : parse_week fp today now = .ok w) :
    w.week_start = start_of_week today ∧
    w.week_start % 7 = 0 ∧
    w.week_start ≤ today ∧
    today < w.week_start + 7 ∧
    w.week_end = w.week_start + 6 ∧
    w.week_end % 7 = 6 ∧
    w.meals.map Prod.fst = (List.range 7).map (fun i => w.week_start + i) := by
  rw [parse_week] at h
  cases hpd : parse_week_days fp (week_date_list today) with
  | error e => rw [hpd] at h; simp at h
  | ok entries =>
    rw [hpd] at h
    by_cases hany : (entries.any (fun e => hasDish e.2)) = true
    · simp only [hany, if_true, ite_true, Except.ok.injEq] at h
      have hfst := parse_week_days_fst fp (week_date_list today) entries hpd
      subst h
      have hs0 : start_of_week today % 7 = 0 := by
        unfold start_of_week; omega
      have hs1 : start_of_week today ≤ today := by
        unfold start_of_week; omega
      have hs2 : today < start_of_week today + 7 := by
        unfold start_of_week
        have := Nat.mod_lt today (show 0 < 7 by norm_num)
        omega
      refine ⟨rfl, hs0, hs1, hs2, rfl, ?_, ?_⟩
      · show end_of_week today % 7 = 6
        unfold end_of_week start_of_week
        omega
      · show entries.map Prod.fst = (List.range 7).map (fun i => start_of_week today + i)
        simpa [week_date_list] using hfst
    · simp only [hany, if_false, ite_false] at h
      exact absurd h (by simp)

/-- The concrete document for the C6 witness. -/
def c6doc : WeekDoc :=
  { week_start := 7, week_end := 13, generated_at := [],
    meals := (week_date_list 9).map (fun d => (d, oneDishDay)) }

/-- Witness for C6 at a known Wednesday (day 9): the Monday two days
before, the Sunday four days after, and the seven consecutive keys. -/
theorem c6_witness :
    c6doc.week_start = start_of_week 9 ∧
    c6doc.week_start % 7 = 0 ∧
    c6doc.week_start ≤ 9 ∧
    9 < c6doc.week_start + 7 ∧
    c6doc.week_end = c6doc.week_start + 6 ∧
    c6doc.week_end % 7 = 6 ∧
    c6doc.meals.map Prod.fst = (List.range 7).map (fun i => c6doc.week_start + i) :=
  c6_week_bounds (fun _ => .ok oneDishDay) 9 [] c6doc (by rfl)

/-! Claims C7 and C10: the text normalizer.  The lemmas below develop the
algebra of the three scan passes. -/

/-- Whether a string starts with a whitespace character. -/
def headSpace : Str → Bool
  | [] => false
  | ch :: _ => isSpace ch

/-- Every whitespace character of the string is a plain space. -/
def spacesClean (l : Str) : Bool := l.all (fun ch => !isSpace ch || ch == ' ')

/-- No two adjacent whitespace characters. -/
def noDoubleSpace : Str → Bool
  | a :: b :: rest => (!(isSpace a && isSpace b)) && noDoubleSpace (b :: rest)
  | _ => true

theorem col_cons_not_space (p : Bool) (ch : Char) (ys : Str) (h : ¬isSpace ch = true) :
    col p (ch :: ys) = ch :: col false ys := by
  simp [col, h]

theorem col_true_cons_space (ch : Char) (ys : Str) (h : isSpace ch = true) :
    col true (ch :: ys) = col true ys := by
  simp [col, h]

theorem col_false_cons_space (ch : Char) (ys : Str) (h : isSpace ch = true) :
    col false (ch :: ys) = ' ' :: col true ys := by
  simp [col, h]

theorem spacesClean_cons (ch : Char) (l : Str) :
    spacesClean (ch :: l) = ((!isSpace ch || ch == ' ') && spacesClean l) := by
  simp [spacesClean]

theorem col_append (xs : Str) : ∀ (p : Bool) (ys : Str),
    col p (xs ++ ys) = col p xs ++ col (flagAfter p xs) ys := by
  induction xs with
  | nil => intro p ys; rfl
  | cons ch rest ih =>
    intro p ys
    have hcons : (ch :: rest) ++ ys = ch :: (rest ++ ys) := rfl
    have hflag : flagAfter p (ch :: rest) = flagAfter (isSpace ch) rest := rfl
    by_cases hs : isSpace ch = true
    · rw [hcons, hflag, hs]
      cases p with
      | true =>
        rw [col_true_cons_space _ _ hs, col_true_cons_space _ _ hs, ih true ys]
      | false =>
        rw [col_false_cons_space _ _ hs, col_false_cons_space _ _ hs, ih true ys]
        rfl
    · have hs' : isSpace ch = false := by simpa using hs
      rw [hcons, hflag, hs']
      rw [col_cons_not_space p _ _ hs, col_cons_not_space p _ _ hs, ih false ys]
      rfl

theorem col_false_head_space (xs : Str) (h : headSpace xs = true) :
    col false xs = ' ' :: col true xs := by
  cases xs with
  | nil => simp [headSpace] at h
  | cons ch rest =>
    have hs : isSpace ch = true := h
    rw [col_false_cons_space _ _ hs, col_true_cons_space _ _ hs]

theorem col_false_head_nospace (xs : Str) (h : headSpace xs = false) :
    col false xs = col true xs := by
  cases xs with
  | nil => rfl
  | cons ch rest =>
    have hs : ¬isSpace ch = true := by
      simp [headSpace] at h
      simp [h]
    rw [col_cons_not_space _ _ _ hs, col_cons_not_space _ _ _ hs]

theorem flagAfter_col (xs : Str) : ∀ p, flagAfter p (col p xs) = flagAfter p xs := by
  induction xs with
  | nil => intro p; rfl
  | cons ch rest ih =>
    intro p
    have hflag : flagAfter p (ch :: rest) = flagAfter (isSpace ch) rest := rfl
    by_cases hs : isSpace ch = true
    · rw [hflag, hs]
      cases p with
      | true =>
        rw [col_true_cons_space _ _ hs]
        exact ih true
      | false =>
        rw [col_false_cons_space _ _ hs]
        have : flagAfter false (' ' :: col true rest) = flagAfter true (col true rest) := by
          simp [flagAfter, isSpace]
        rw [this]
        exact ih true
    · have hs' : isSpace ch = false := by simpa using hs
      rw [hflag, hs']
      rw [col_cons_not_space p _ _ hs]
      have : flagAfter p (ch :: col false rest) = flagAfter false (col false rest) := by
        simp [flagAfter, hs']
      rw [this]
      exact ih false

theorem col_true_dropWhile (xs : Str) : col true xs = col false (xs.dropWhile isSpace) := by
  induction xs with
  | nil => rfl
  | cons ch rest ih =>
    by_cases hs : isSpace ch = true
    · rw [col_true_cons_space ch rest hs, List.dropWhile_cons_of_pos hs, ih]
    · rw [List.dropWhile_cons_of_neg hs, col_cons_not_space true ch rest hs,
        col_cons_not_space false ch rest hs]

theorem col_mem (xs : Str) : ∀ (p : Bool) (ch : Char), ch ∈ col p xs → ch = ' ' ∨ ch ∈ xs := by
  induction xs with
  | nil => intro p ch h; simp [col] at h
  | cons c rest ih =>
    intro p ch h
    by_cases hs : isSpace c = true
    · cases p with
      | true =>
        rw [col_true_cons_space c rest hs] at h
        rcases ih true ch h with h' | h'
        · exact Or.inl h'
        · exact Or.inr (by simp [h'])
      | false =>
        rw [col_false_cons_space c rest hs] at h
        rcases List.mem_cons.mp h with rfl | h'
        · exact Or.inl rfl
        · rcases ih true ch h' with h'' | h''
          · exact Or.inl h''
          · exact Or.inr (by simp [h''])
    · rw [col_cons_not_space p c rest hs] at h
      rcases List.mem_cons.mp h with rfl | h'
      · exact Or.inr (by simp)
      · rcases ih false ch h' with h'' | h''
        · exact Or.inl h''
        · exact Or.inr (by simp [h''])

theorem col_spacesClean (xs : Str) : ∀ p, spacesClean (col p xs) = true := by
  induction xs with
  | nil => intro p; rfl
  | cons ch rest ih =>
    intro p
    by_cases hs : isSpace ch = true
    · cases p with
      | true => rw [col_true_cons_space ch rest hs]; exact ih true
      | false =>
        rw [col_false_cons_space ch rest hs, spacesClean_cons, ih true]
        decide
    · have hs' : isSpace ch = false := by simpa using hs
      rw [col_cons_not_space p ch rest hs, spacesClean_cons, ih false, hs']
      simp

theorem col_true_head (xs : Str) : headSpace (col true xs) = false := by
  induction xs with
  | nil => rfl
  | cons ch rest ih =>
    by_cases hs : isSpace ch = true
    · rw [col_true_cons_space ch rest hs]; exact ih
    · rw [col_cons_not_space true ch rest hs]
      simpa [headSpace] using hs

theorem noDoubleSpace_cons_of_head (a : Char) (l : Str)
    (h1 : isSpace a = false ∨ headSpace l = false) (h2 : noDoubleSpace l = true) :
    noDoubleSpace (a :: l) = true := by
  cases l with
  | nil => rfl
  | cons b rest =>
    have hb : (!(isSpace a && isSpace b)) = true := by
      rcases h1 with h1 | h1
      · simp [h1]
      · have : isSpace b = false := h1
        simp [this]
    simp only [noDoubleSpace, Bool.and_eq_true]
    exact ⟨hb, h2⟩

theorem col_noDouble (xs : Str) :
    noDoubleSpace (col false xs) = true ∧ noDoubleSpace (col true xs) = true := by
  induction xs with
  | nil => constructor <;> rfl
  | cons ch rest ih =>
    by_cases hs : isSpace ch = true
    · rw [col_true_cons_space ch rest hs, col_false_cons_space ch rest hs]
      refine ⟨?_, ih.2⟩
      exact noDoubleSpace_cons_of_head ' ' _ (Or.inr (col_true_head rest)) ih.2
    · have hs' : isSpace ch = false := by simpa using hs
      rw [col_cons_not_space true ch rest hs, col_cons_not_space false ch rest hs]
      have key : noDoubleSpace (ch :: col false rest) = true :=
        noDoubleSpace_cons_of_head ch _ (Or.inl hs') ih.1
      exact ⟨key, key⟩

theorem pyLower_isSpace (ch : Char) : isSpace (pyLower ch) = isSpace ch := by
  unfold pyLower
  split <;> rfl

theorem ciEq_isSpace (x y : Char) (h : ciEq x y = true) : isSpace x = isSpace y := by
  have hxy : pyLower x = pyLower y := by simpa [ciEq] using h
  rw [← pyLower_isSpace x, ← pyLower_isSpace y, hxy]

theorem spGo_false_cons_not_lparen (ch : Char) (l : Str) (h : ¬ch = '(') :
    spGo false (ch :: l) = ch :: spGo false l := by
  have hb : (ch == '(') = false := by simpa using h
  simp [spGo, hb]

theorem spGo_false_no_lparen (xs : Str) :
    '(' ∉ xs → ∀ ys, spGo false (xs ++ ys) = xs ++ spGo false ys := by
  induction xs with
  | nil => intro _ ys; rfl
  | cons ch rest ih =>
    intro hx ys
    have hch : ¬ch = '(' := fun hh => hx (by simp [hh])
    rw [List.cons_append, spGo_false_cons_not_lparen ch _ hch,
      ih (fun hh => hx (by simp [hh])) ys]
    rfl

theorem spGo_id_of_no_lparen (l : Str) (h : '(' ∉ l) : spGo false l = l := by
  have := spGo_false_no_lparen l h []
  simpa [spGo] using this

theorem spGo_true_through (C : Str) :
    ')' ∉ C → ∀ B, spGo true (C ++ ')' :: B) = spGo false B := by
  induction C with
  | nil => intro _ B; simp [spGo]
  | cons ch rest ih =>
    intro hC B
    have hch : (ch == ')') = false := by
      have : ¬ch = ')' := fun hh => hC (by simp [hh])
      simpa using this
    rw [List.cons_append]
    rw [show spGo true (ch :: (rest ++ ')' :: B)) = spGo true (rest ++ ')' :: B) from by
      simp [spGo, hch]]
    exact ih (fun hh => hC (by simp [hh])) B

theorem afterRparen_through (C : Str) :
    ')' ∉ C → ∀ B, afterRparen (C ++ ')' :: B) = some B := by
  induction C with
  | nil => intro _ B; simp [afterRparen]
  | cons ch rest ih =>
    intro hC B
    have hch : ¬ch = ')' := fun hh => hC (by simp [hh])
    rw [List.cons_append]
    rw [show afterRparen (ch :: (rest ++ ')' :: B)) = afterRparen (rest ++ ')' :: B) from by
      simp [afterRparen, hch]]
    exact ih (fun hh => hC (by simp [hh])) B

theorem ciStartsWith_append (m : Str) :
    ∀ u v, ciStartsWith m u = true → ciStartsWith m (u ++ v) = true := by
  induction m with
  | nil => intro u v _; rfl
  | cons x ms ih =>
    intro u v h
    cases u with
    | nil => simp [ciStartsWith] at h
    | cons y us =>
      rw [List.cons_append]
      simp only [ciStartsWith, Bool.and_eq_true] at h ⊢
      exact ⟨h.1, ih us v h.2⟩

theorem spGo_false_removes (C B : Str) (hC : ')' ∉ C)
    (hm : ∃ m ∈ markers, ciStartsWith m C = true) :
    spGo false ('(' :: (C ++ ')' :: B)) = spGo false B := by
  obtain ⟨m, hmem, hpre⟩ := hm
  have hany : markers.any (fun m => ciStartsWith m (C ++ ')' :: B)) = true :=
    List.any_eq_true.mpr ⟨m, hmem, ciStartsWith_append m C (')' :: B) hpre⟩
  have hsome : (afterRparen (C ++ ')' :: B)).isSome = true := by
    rw [afterRparen_through C hC B]
    rfl
  rw [show spGo false ('(' :: (C ++ ')' :: B)) = spGo true (C ++ ')' :: B) from by
    simp [spGo, hany, hsome]]
  exact spGo_true_through C hC B

theorem spGo_mem (l : Str) : ∀ (b : Bool) (ch : Char), ch ∈ spGo b l → ch ∈ l := by
  induction l with
  | nil => intro b ch h; cases b <;> simp [spGo] at h
  | cons c rest ih =>
    intro b ch h
    cases b with
    | true =>
      by_cases hc : (c == ')') = true
      · rw [show spGo true (c :: rest) = spGo false rest from by simp [spGo, hc]] at h
        exact List.mem_cons_of_mem c (ih false ch h)
      · have hc' : (c == ')') = false := by simpa using hc
        rw [show spGo true (c :: rest) = spGo true rest from by simp [spGo, hc']] at h
        exact List.mem_cons_of_mem c (ih true ch h)
    | false =>
      by_cases hc : (c == '(' && markers.any (fun m => ciStartsWith m rest)
          && (afterRparen rest).isSome) = true
      · rw [show spGo false (c :: rest) = spGo true rest from by simp [spGo, hc]] at h
        exact List.mem_cons_of_mem c (ih true ch h)
      · have hc' : (c == '(' && markers.any (fun m => ciStartsWith m rest)
            && (afterRparen rest).isSome) = false := by simpa using hc
        rw [show spGo false (c :: rest) = c :: spGo false rest from by simp [spGo, hc']] at h
        rcases List.mem_cons.mp h with rfl | h'
        · simp
        · exact List.mem_cons_of_mem c (ih false ch h')


/-- The last character of the string is not whitespace (vacuously true for
the empty string). -/
def okLast : Str → Bool
  | [] => true
  | [x] => !isSpace x
  | _ :: rest => okLast rest

/-- The shape every regex marker has: non-empty, no leading whitespace, no
two adjacent whitespace characters, every whitespace a plain space, no
trailing whitespace. -/
def okMarker (m : Str) : Bool :=
  !m.isEmpty && !headSpace m && noDoubleSpace m && spacesClean m && okLast m

theorem markers_ok : markers.all okMarker = true := by decide

theorem okLast_cons (x : Char) (ms : Str) (h : ms ≠ []) : okLast (x :: ms) = okLast ms := by
  cases ms with
  | nil => exact absurd rfl h
  | cons y ys => rfl

theorem ciStartsWith_allspace_false (m : Str) :
    ∀ r, (∀ ch ∈ r, isSpace ch = true) → m ≠ [] → okLast m = true →
      ciStartsWith m r = false := by
  induction m with
  | nil => intro r _ h _; exact absurd rfl h
  | cons x ms ih =>
    intro r hr _ hlast
    cases r with
    | nil => rfl
    | cons y rs =>
      by_cases hms : ms = []
      · subst hms
        have hx : isSpace x = false := by
          have : okLast [x] = true := hlast
          simpa [okLast] using this
        have hy : isSpace y = true := hr y (by simp)
        have hxy : ciEq x y = false := by
          cases hce : ciEq x y
          · rfl
          · have := ciEq_isSpace x y hce
            rw [hx, hy] at this
            exact absurd this (by simp)
        simp [ciStartsWith, hxy]
      · have hlast' : okLast ms = true := by
          have := hlast
          rw [okLast_cons x ms hms] at this
          exact this
        have : ciStartsWith ms rs = false :=
          ih rs (fun ch hch => hr ch (by simp [hch])) hms hlast'
        simp [ciStartsWith, this]

theorem ciStartsWith_append_spaces (m : Str) :
    ∀ u r, (∀ ch ∈ r, isSpace ch = true) → okLast m = true →
      ciStartsWith m (u ++ r) = ciStartsWith m u := by
  induction m with
  | nil => intro u r _ _; rfl
  | cons x ms ih =>
    intro u r hr hlast
    cases u with
    | nil =>
      rw [List.nil_append, ciStartsWith_allspace_false (x :: ms) r hr (by simp) hlast]
      rfl
    | cons y us =>
      rw [List.cons_append]
      simp only [ciStartsWith]
      by_cases hms : ms = []
      · subst hms; rfl
      · have hlast' : okLast ms = true := by
          have := hlast
          rw [okLast_cons x ms hms] at this
          exact this
        rw [ih us r hr hlast']

theorem any_ciStartsWith_append_spaces (L : List Str) (us r : Str)
    (hr : ∀ ch ∈ r, isSpace ch = true) (hL : L.all okMarker = true) :
    L.any (fun m => ciStartsWith m (us ++ r)) = L.any (fun m => ciStartsWith m us) := by
  induction L with
  | nil => rfl
  | cons m ms ih =>
    simp only [List.all_cons, Bool.and_eq_true] at hL
    have hlast : okLast m = true := by
      have hok := hL.1
      simp only [okMarker, Bool.and_eq_true] at hok
      exact hok.2
    simp only [List.any_cons]
    rw [ciStartsWith_append_spaces m us r hr hlast, ih hL.2]

theorem afterRparen_none (r : Str) : ')' ∉ r → afterRparen r = none := by
  induction r with
  | nil => intro _; rfl
  | cons ch rs ih =>
    intro h
    have hch : ¬ch = ')' := fun hh => h (by simp [hh])
    rw [show afterRparen (ch :: rs) = afterRparen rs from by simp [afterRparen, hch]]
    exact ih (fun hh => h (by simp [hh]))

theorem afterRparen_append (u : Str) :
    ∀ r, afterRparen (u ++ r) =
      (match afterRparen u with
       | some t => some (t ++ r)
       | none => afterRparen r) := by
  induction u with
  | nil => intro r; rfl
  | cons ch us ih =>
    intro r
    by_cases hch : ch = ')'
    · subst hch
      simp [afterRparen]
    · rw [List.cons_append,
        show afterRparen (ch :: (us ++ r)) = afterRparen (us ++ r) from by
          simp [afterRparen, hch],
        show afterRparen (ch :: us) = afterRparen us from by simp [afterRparen, hch]]
      exact ih r

theorem isSome_afterRparen_append_spaces (us r : Str) (hr : ')' ∉ r) :
    (afterRparen (us ++ r)).isSome = (afterRparen us).isSome := by
  rw [afterRparen_append us r]
  cases h : afterRparen us with
  | some t => simp
  | none => simp [afterRparen_none r hr]

theorem afterRparen_isSome_mem (l : Str) : (afterRparen l).isSome = true → ')' ∈ l := by
  induction l with
  | nil => intro h; simp [afterRparen] at h
  | cons ch rest ih =>
    intro h
    by_cases hch : ch = ')'
    · simp [hch]
    · rw [show afterRparen (ch :: rest) = afterRparen rest from by
        simp [afterRparen, hch]] at h
      exact List.mem_cons_of_mem ch (ih h)

theorem spGo_append_spaces (r : Str) (hr : ∀ ch ∈ r, isSpace ch = true) :
    ∀ X, (spGo false (X ++ r) = spGo false X ++ r) ∧
      (')' ∈ X → spGo true (X ++ r) = spGo true X ++ r) := by
  have hrp : ')' ∉ r := fun hm => absurd (hr ')' hm) (by decide)
  have hlp : '(' ∉ r := fun hm => absurd (hr '(' hm) (by decide)
  intro X
  induction X with
  | nil =>
    constructor
    · rw [List.nil_append, spGo_id_of_no_lparen r hlp]
      rfl
    · intro h; simp at h
  | cons ch us ih =>
    constructor
    · rw [List.cons_append]
      by_cases hch : ch = '('
      · subst hch
        have hany := any_ciStartsWith_append_spaces markers us r hr markers_ok
        have hsome := isSome_afterRparen_append_spaces us r hrp
        by_cases hcond : (('(' == '(') && markers.any (fun m => ciStartsWith m us)
            && (afterRparen us).isSome) = true
        · have hcond' : (('(' == '(') && markers.any (fun m => ciStartsWith m (us ++ r))
              && (afterRparen (us ++ r)).isSome) = true := by
            rw [Bool.and_assoc, Bool.and_eq_true] at hcond ⊢
            rw [Bool.and_eq_true] at hcond ⊢
            exact ⟨hcond.1, hany ▸ hcond.2.1, hsome ▸ hcond.2.2⟩
          rw [show spGo false ('(' :: (us ++ r)) = spGo true (us ++ r) from by
            simp only [spGo, hcond', if_true, ite_true]]
          rw [show spGo false ('(' :: us) = spGo true us from by
            simp only [spGo, hcond, if_true, ite_true]]
          have hmem : ')' ∈ us := by
            apply afterRparen_isSome_mem
            rw [Bool.and_assoc, Bool.and_eq_true, Bool.and_eq_true] at hcond
            exact hcond.2.2
          exact ih.2 hmem
        · have hcond2 : (('(' == '(') && markers.any (fun m => ciStartsWith m us)
              && (afterRparen us).isSome) = false := by simpa using hcond
          have hcond2' : (('(' == '(') && markers.any (fun m => ciStartsWith m (us ++ r))
              && (afterRparen (us ++ r)).isSome) = false := by
            rw [hany, hsome]
            exact hcond2
          rw [show spGo false ('(' :: (us ++ r)) = '(' :: spGo false (us ++ r) from by
            simp only [spGo, hcond2', Bool.false_eq_true, if_false, ite_false]]
          rw [show spGo false ('(' :: us) = '(' :: spGo false us from by
            simp only [spGo, hcond2, Bool.false_eq_true, if_false, ite_false]]
          rw [ih.1]
          rfl
      · rw [spGo_false_cons_not_lparen ch _ hch, spGo_false_cons_not_lparen ch _ hch,
          ih.1]
        rfl
    · intro hmem
      rw [List.cons_append]
      by_cases hch : ch = ')'
      · subst hch
        rw [show spGo true (')' :: (us ++ r)) = spGo false (us ++ r) from by
          simp [spGo]]
        rw [show spGo true (')' :: us) = spGo false us from by simp [spGo]]
        exact ih.1
      · have hch' : (ch == ')') = false := by simpa using hch
        have hmem' : ')' ∈ us := by
          rcases List.mem_cons.mp hmem with h | h
          · exact absurd h.symm hch
          · exact h
        rw [show spGo true (ch :: (us ++ r)) = spGo true (us ++ r) from by
          simp [spGo, hch']]
        rw [show spGo true (ch :: us) = spGo true us from by simp [spGo, hch']]
        exact ih.2 hmem'


theorem mem_dropWhile_sub (p : Char → Bool) (l : Str) :
    ∀ ch ∈ l.dropWhile p, ch ∈ l := by
  induction l with
  | nil => simp
  | cons c rest ih =>
    intro ch hch
    by_cases hc : p c = true
    · rw [List.dropWhile_cons_of_pos hc] at hch
      exact List.mem_cons_of_mem c (ih ch hch)
    · rw [List.dropWhile_cons_of_neg hc] at hch
      exact hch

theorem mem_trimEnd_sub (p : Char → Bool) (l : Str) :
    ∀ ch ∈ trimEnd p l, ch ∈ l := by
  intro ch hch
  unfold trimEnd at hch
  rw [List.mem_reverse] at hch
  have := mem_dropWhile_sub p l.reverse ch hch
  rwa [List.mem_reverse] at this

theorem mem_takeWhile_pred (p : Char → Bool) (l : Str) :
    ∀ ch ∈ l.takeWhile p, p ch = true := by
  induction l with
  | nil => simp
  | cons c rest ih =>
    by_cases hc : p c = true
    · rw [List.takeWhile_cons_of_pos hc]
      intro ch hch
      rcases List.mem_cons.mp hch with rfl | h
      · exact hc
      · exact ih ch h
    · rw [List.takeWhile_cons_of_neg hc]
      simp

theorem spacesClean_subset (l l' : Str) (hsub : ∀ ch ∈ l', ch ∈ l)
    (h : spacesClean l = true) : spacesClean l' = true := by
  simp only [spacesClean, List.all_eq_true] at h ⊢
  exact fun ch hch => h ch (hsub ch hch)

theorem trimEnd_decomp (p : Char → Bool) (l : Str) :
    l = trimEnd p l ++ (l.reverse.takeWhile p).reverse := by
  conv_lhs => rw [← List.reverse_reverse l,
    ← List.takeWhile_append_dropWhile (p := p) (l := l.reverse)]
  rw [List.reverse_append]
  rfl

theorem dropWhile_append_eq (p : Char → Bool) (x : Str) : ∀ y : Str,
    List.dropWhile p (x ++ y) =
      if x.all p then List.dropWhile p y else List.dropWhile p x ++ y := by
  induction x with
  | nil => intro y; simp
  | cons c xs ih =>
    intro y
    by_cases hc : p c = true
    · rw [List.cons_append, List.dropWhile_cons_of_pos hc, ih y,
        List.dropWhile_cons_of_pos hc]
      simp [List.all_cons, hc]
    · rw [List.cons_append, List.dropWhile_cons_of_neg hc,
        List.dropWhile_cons_of_neg hc]
      simp [List.all_cons, hc]

theorem strip2_cons_strip (ch : Char) (u : Str) (h : isStrip ch = true) :
    strip2 (ch :: u) = strip2 u := by
  unfold strip2
  rw [List.dropWhile_cons_of_pos h]

theorem trimEnd_append_strip (p : Char → Bool) (u : Str) (c : Char) (h : p c = true) :
    trimEnd p (u ++ [c]) = trimEnd p u := by
  unfold trimEnd
  rw [List.reverse_append]
  rw [show ([c].reverse ++ u.reverse : Str) = c :: u.reverse from by simp]
  rw [List.dropWhile_cons_of_pos h]

theorem strip2_append_strip (u : Str) (c : Char) (h : isStrip c = true) :
    strip2 (u ++ [c]) = strip2 u := by
  unfold strip2
  rw [dropWhile_append_eq]
  by_cases hall : u.all isStrip = true
  · rw [if_pos hall]
    have h1 : List.dropWhile isStrip [c] = [] := by
      rw [List.dropWhile_cons_of_pos h]
      rfl
    have h2 : List.dropWhile isStrip u = [] := by
      rw [List.dropWhile_eq_nil_iff]
      intro x hx
      exact (List.all_eq_true.mp hall) x hx
    rw [h1, h2]
  · rw [if_neg hall, trimEnd_append_strip isStrip _ c h]

theorem col_true_allspace (e : Str) :
    (∀ ch ∈ e, isSpace ch = true) → col true e = [] := by
  induction e with
  | nil => intro _; rfl
  | cons ch rest ih =>
    intro h
    rw [col_true_cons_space ch rest (h ch (by simp))]
    exact ih (fun c hc => h c (by simp [hc]))

theorem col_allspace_cases (e : Str) (h : ∀ ch ∈ e, isSpace ch = true) :
    ∀ f, col f e = [] ∨ col f e = [' '] := by
  intro f
  cases e with
  | nil => exact Or.inl rfl
  | cons ch rest =>
    cases f with
    | true =>
      exact Or.inl (col_true_allspace _ h)
    | false =>
      right
      rw [col_false_cons_space ch rest (h ch (by simp))]
      rw [col_true_allspace rest (fun c hc => h c (by simp [hc]))]

theorem flagAfter_allspace (a : Str) : a ≠ [] → (∀ ch ∈ a, isSpace ch = true) →
    ∀ p, flagAfter p a = true := by
  induction a with
  | nil => intro h _ _; exact absurd rfl h
  | cons ch rest ih =>
    intro _ hsp p
    cases rest with
    | nil =>
      have : isSpace ch = true := hsp ch (by simp)
      simp [flagAfter, this]
    | cons d rest' =>
      have := ih (by simp) (fun c hc => hsp c (by simp [hc])) (isSpace ch)
      simpa [flagAfter] using this

theorem strip2_col_true (u : Str) : strip2 (col true u) = strip2 (col false u) := by
  by_cases h : headSpace u = true
  · rw [col_false_head_space u h, strip2_cons_strip _ _ (by decide)]
  · rw [col_false_head_nospace u (by simpa using h)]

theorem strip2_col_absorb (a u e : Str) (ha : ∀ ch ∈ a, isSpace ch = true)
    (he : ∀ ch ∈ e, isSpace ch = true) :
    strip2 (col false (a ++ (u ++ e))) = strip2 (col false u) := by
  rw [col_append a false (u ++ e)]
  cases a with
  | nil =>
    rw [show col false ([] : Str) = [] from rfl, List.nil_append]
    rw [show flagAfter false ([] : Str) = false from rfl]
    rw [col_append u false e]
    rcases col_allspace_cases e he (flagAfter false u) with hce | hce
    · rw [hce, List.append_nil]
    · rw [hce, strip2_append_strip _ ' ' (by decide)]
  | cons c a' =>
    have h1 : col false (c :: a') = [' '] := by
      rw [col_false_cons_space c a' (ha c (by simp))]
      rw [col_true_allspace a' (fun ch hc => ha ch (by simp [hc]))]
    have h2 : flagAfter false (c :: a') = true :=
      flagAfter_allspace (c :: a') (by simp) ha false
    rw [h1, h2, col_append u true e]
    rcases col_allspace_cases e he (flagAfter true u) with hce | hce
    · rw [hce, List.append_nil]
      rw [show ([' '] ++ col true u : Str) = ' ' :: col true u from rfl]
      rw [strip2_cons_strip _ _ (by decide)]
      exact strip2_col_true u
    · rw [hce]
      rw [show ([' '] ++ (col true u ++ [' ']) : Str) = ' ' :: (col true u ++ [' ']) from rfl]
      rw [strip2_cons_strip _ _ (by decide), strip2_append_strip _ ' ' (by decide)]
      exact strip2_col_true u


theorem c2go_eq_col (n : Nat) : ∀ l : Str, l.length ≤ n → spacesClean l = true →
    c2go false l = col false l ∧ c2go true l = col true l := by
  induction n with
  | zero =>
    intro l hl _
    cases l with
    | nil => exact ⟨rfl, rfl⟩
    | cons c rest => simp at hl
  | succ n ih =>
    intro l hl hc
    cases l with
    | nil => exact ⟨rfl, rfl⟩
    | cons a rest =>
      rw [spacesClean_cons, Bool.and_eq_true] at hc
      have hca : (!isSpace a || a == ' ') = true := hc.1
      have hcrest : spacesClean rest = true := hc.2
      have hlrest : rest.length ≤ n := by
        simp only [List.length_cons] at hl
        omega
      have hspace_eq : isSpace a = true → a = ' ' := by
        intro hs
        rw [Bool.or_eq_true] at hca
        rcases hca with h | h
        · rw [hs] at h; simp at h
        · simpa using h
      constructor
      · cases rest with
        | nil =>
          by_cases hs : isSpace a = true
          · rw [show c2go false [a] = [a] from rfl, col_false_cons_space a [] hs,
              hspace_eq hs]
            rfl
          · rw [show c2go false [a] = [a] from rfl, col_cons_not_space false a [] hs]
            rfl
        | cons b rest' =>
          by_cases hab : (isSpace a && isSpace b) = true
          · rw [Bool.and_eq_true] at hab
            have hsa : isSpace a = true := hab.1
            have hsb : isSpace b = true := hab.2
            rw [show c2go false (a :: b :: rest') = ' ' :: c2go true rest' from by
              simp [c2go, hab]]
            rw [col_false_cons_space a _ hsa, col_true_cons_space b _ hsb]
            congr 1
            have hlen' : rest'.length ≤ n := by
              simp only [List.length_cons] at hl
              omega
            have hclean' : spacesClean rest' = true := by
              rw [spacesClean_cons, Bool.and_eq_true] at hcrest
              exact hcrest.2
            exact (ih rest' hlen' hclean').2
          · have hab' : (isSpace a && isSpace b) = false := by simpa using hab
            rw [show c2go false (a :: b :: rest') = a :: c2go false (b :: rest') from by
              simp [c2go, hab']]
            rw [(ih (b :: rest') hlrest hcrest).1]
            by_cases hsa : isSpace a = true
            · have hsb : isSpace b = false := by
                cases hsb : isSpace b
                · rfl
                · rw [hsa, hsb] at hab'
                  simp at hab'
              rw [col_false_cons_space a _ hsa, hspace_eq hsa]
              congr 1
              exact col_false_head_nospace (b :: rest') (by simp [headSpace, hsb])
            · rw [col_cons_not_space false a _ hsa]
      · by_cases hs : isSpace a = true
        · rw [show c2go true (a :: rest) = c2go true rest from by simp [c2go, hs],
            col_true_cons_space a rest hs]
          exact (ih rest hlrest hcrest).2
        · rw [show c2go true (a :: rest) = a :: c2go false rest from by simp [c2go, hs],
            col_cons_not_space true a rest hs]
          congr 1
          exact (ih rest hlrest hcrest).1

theorem col2_eq_col (l : Str) (h : spacesClean l = true) : col2 l = col false l :=
  (c2go_eq_col l.length l le_rfl h).1

/-- `_normalize_text` re-expressed without the intermediate strip: the
leading/trailing whitespace removed by `.strip()` is whitespace the final
`.strip(" -•·,")` removes anyway, and the second whitespace-collapse pass
coincides with the first on strings whose whitespace is already plain
single spaces. -/
theorem norm_alt (s : Str) :
    normalize_text s = strip2 (col false (spGo false (col false s))) := by
  have hclean : spacesClean (col false s) = true := col_spacesClean s false
  have hW1 : spacesClean ((col false s).dropWhile isSpace) = true :=
    spacesClean_subset _ _ (mem_dropWhile_sub _ _) hclean
  have hW2 : spacesClean (trimEnd isSpace ((col false s).dropWhile isSpace)) = true :=
    spacesClean_subset _ _ (mem_trimEnd_sub _ _) hW1
  have hX : spacesClean (spGo false
      (trimEnd isSpace ((col false s).dropWhile isSpace))) = true :=
    spacesClean_subset _ _ (fun ch hch => spGo_mem _ false ch hch) hW2
  have hA0sp : ∀ ch ∈ (col false s).takeWhile isSpace, isSpace ch = true :=
    mem_takeWhile_pred isSpace (col false s)
  have hEsp : ∀ ch ∈ (((col false s).dropWhile isSpace).reverse.takeWhile isSpace).reverse,
      isSpace ch = true := by
    intro ch hch
    rw [List.mem_reverse] at hch
    exact mem_takeWhile_pred isSpace _ ch hch
  have hA0np : '(' ∉ (col false s).takeWhile isSpace := fun hm =>
    absurd (hA0sp '(' hm) (by decide)
  have h1 : spGo false (col false s) =
      (col false s).takeWhile isSpace ++
        (spGo false (trimEnd isSpace ((col false s).dropWhile isSpace)) ++
          (((col false s).dropWhile isSpace).reverse.takeWhile isSpace).reverse) := by
    conv_lhs => rw [← List.takeWhile_append_dropWhile (p := isSpace) (l := col false s)]
    rw [spGo_false_no_lparen _ hA0np]
    congr 1
    conv_lhs => rw [trimEnd_decomp isSpace ((col false s).dropWhile isSpace)]
    exact (spGo_append_spaces _ hEsp _).1
  show strip2 (col2 (spGo false (stripWs (col false s)))) =
    strip2 (col false (spGo false (col false s)))
  rw [show stripWs (col false s) =
      trimEnd isSpace ((col false s).dropWhile isSpace) from rfl]
  rw [col2_eq_col _ hX, h1, strip2_col_absorb _ _ _ hA0sp hEsp]


theorem noDoubleSpace_tail (x : Char) (ms : Str) (h : noDoubleSpace (x :: ms) = true) :
    noDoubleSpace ms = true := by
  cases ms with
  | nil => rfl
  | cons z zs =>
    simp only [noDoubleSpace, Bool.and_eq_true] at h
    exact h.2

theorem noDoubleSpace_head (x : Char) (ms : Str) (h : noDoubleSpace (x :: ms) = true)
    (hx : isSpace x = true) : headSpace ms = false := by
  cases ms with
  | nil => rfl
  | cons z zs =>
    simp only [noDoubleSpace, Bool.and_eq_true] at h
    have := h.1
    rw [hx] at this
    simpa [headSpace] using this

theorem spacesClean_tail (x : Char) (ms : Str) (h : spacesClean (x :: ms) = true) :
    spacesClean ms = true := by
  rw [spacesClean_cons, Bool.and_eq_true] at h
  exact h.2

theorem ciStartsWith_col (m : Str) : ∀ (c : Str) (b : Bool),
    noDoubleSpace m = true → spacesClean m = true →
    (b = true → headSpace m = false) → ciStartsWith m c = true →
    ciStartsWith m (col b c) = true := by
  induction m with
  | nil => intro c b _ _ _ _; rfl
  | cons x ms ih =>
    intro c b hnd hsc hb hpre
    cases c with
    | nil => simp [ciStartsWith] at hpre
    | cons y cs =>
      rw [show ciStartsWith (x :: ms) (y :: cs) = (ciEq x y && ciStartsWith ms cs) from rfl,
        Bool.and_eq_true] at hpre
      obtain ⟨hxy, hrest⟩ := hpre
      by_cases hx : isSpace x = true
      · have hx' : x = ' ' := by
          rw [spacesClean_cons, Bool.and_eq_true] at hsc
          have h1 := hsc.1
          rw [Bool.or_eq_true] at h1
          rcases h1 with h | h
          · rw [hx] at h; simp at h
          · simpa using h
        have hy : isSpace y = true := by rw [← ciEq_isSpace x y hxy]; exact hx
        have hbf : b = false := by
          cases b
          · rfl
          · have := hb rfl
            simp [headSpace, hx] at this
        subst hbf
        rw [col_false_cons_space y cs hy]
        rw [show ciStartsWith (x :: ms) (' ' :: col true cs)
            = (ciEq x ' ' && ciStartsWith ms (col true cs)) from rfl, Bool.and_eq_true]
        refine ⟨by rw [hx']; decide, ?_⟩
        refine ih cs true (noDoubleSpace_tail x ms hnd) (spacesClean_tail x ms hsc) ?_ hrest
        intro _
        exact noDoubleSpace_head x ms hnd hx
      · have hy : isSpace y = false := by
          rw [← ciEq_isSpace x y hxy]
          simpa using hx
        rw [col_cons_not_space b y cs (by simp [hy])]
        rw [show ciStartsWith (x :: ms) (y :: col false cs)
            = (ciEq x y && ciStartsWith ms (col false cs)) from rfl, Bool.and_eq_true]
        refine ⟨hxy, ih cs false (noDoubleSpace_tail x ms hnd)
          (spacesClean_tail x ms hsc) (fun h => absurd h (by decide)) hrest⟩

/-- Claim C7.  A parenthetical annotation — a group `(c)` whose content `c`
contains no closing parenthesis and begins, case-insensitively, with one of
the fixed markers — is removed in its entirety by `_normalize_text`
(provided the text before it contains no stray `(` able to capture it):
the result is exactly the normalization of the dish with the whole group
deleted, so the surrounding whitespace collapses to single spaces with
trimmed ends.  `_normalize_text` is a total function: it never raises and
always returns a (possibly empty) string, by construction. -/
theorem c7_normalize_strips_marker_parens (a c b : Str)
    (ha : '(' ∉ a) (hc : ')' ∉ c)
    (hm : ∃ m ∈ markers, ciStartsWith m c = true) :
    normalize_text (a ++ '(' :: (c ++ ')' :: b)) = normalize_text (a ++ b) := by
  obtain ⟨m, hmem, hpre⟩ := hm
  have hok : okMarker m = true := by
    have h := markers_ok
    rw [List.all_eq_true] at h
    exact h m hmem
  simp only [okMarker, Bool.and_eq_true] at hok
  obtain ⟨⟨⟨⟨hne, hhead⟩, hnd⟩, hsc⟩, hlast⟩ := hok
  have hpreC : ciStartsWith m (col false c) = true :=
    ciStartsWith_col m c false hnd hsc (fun h => absurd h (by decide)) hpre
  have hCnp : ')' ∉ col false c := by
    intro hmm
    rcases col_mem c false ')' hmm with h | h
    · exact absurd h (by decide)
    · exact hc h
  have hAnp : '(' ∉ col false a := by
    intro hmm
    rcases col_mem a false '(' hmm with h | h
    · exact absurd h (by decide)
    · exact ha h
  rw [norm_alt, norm_alt]
  have e1 : col false (a ++ '(' :: (c ++ ')' :: b))
      = col false a ++ '(' :: (col false c ++ ')' :: col false b) := by
    rw [col_append a false ('(' :: (c ++ ')' :: b))]
    rw [col_cons_not_space _ '(' _ (by decide)]
    rw [col_append c false (')' :: b)]
    rw [col_cons_not_space _ ')' _ (by decide)]
  have e2 : spGo false (col false (a ++ '(' :: (c ++ ')' :: b)))
      = col false a ++ spGo false (col false b) := by
    rw [e1, spGo_false_no_lparen _ hAnp]
    congr 1
    exact spGo_false_removes (col false c) (col false b) hCnp ⟨m, hmem, hpreC⟩
  have e3 : spGo false (col false (a ++ b))
      = col false a ++ spGo false (col (flagAfter false a) b) := by
    rw [col_append a false b, spGo_false_no_lparen _ hAnp]
  rw [e2, e3]
  cases hq : flagAfter false a with
  | false => rfl
  | true =>
    by_cases hh : headSpace b = true
    · rw [col_false_head_space b hh]
      rw [show spGo false (' ' :: col true b) = ' ' :: spGo false (col true b) from
        spGo_false_cons_not_lparen ' ' _ (by decide)]
      rw [col_append (col false a) false (' ' :: spGo false (col true b)),
        col_append (col false a) false (spGo false (col true b))]
      rw [flagAfter_col a false, hq]
      rw [col_true_cons_space ' ' _ (by decide)]
    · rw [col_false_head_nospace b (by simpa using hh)]

/-- Witness for C7: the canonical example strips "(contains dairy)"
entirely and collapses the whitespace. -/
theorem c7_witness :
    normalize_text (str "Tomato Basil " ++ '(' :: (str "contains dairy" ++ ')' :: [])) =
        normalize_text (str "Tomato Basil " ++ []) ∧
    normalize_text (str "Tomato Basil " ++ '(' :: (str "contains dairy" ++ ')' :: [])) =
      str "Tomato Basil" :=
  ⟨c7_normalize_strips_marker_parens (str "Tomato Basil ") (str "contains dairy") []
    (by decide) (by decide) ⟨str "contains", by decide, by decide⟩, by decide⟩


theorem noDouble_append_right (t u : Str) (h : noDoubleSpace (t ++ u) = true) :
    noDoubleSpace u = true := by
  induction t with
  | nil => exact h
  | cons ch t' ih =>
    exact ih (noDoubleSpace_tail ch (t' ++ u) h)

theorem noDouble_append_left (u : Str) : ∀ t, noDoubleSpace (u ++ t) = true →
    noDoubleSpace u = true := by
  induction u with
  | nil => intro t _; rfl
  | cons a us ih =>
    intro t h
    cases us with
    | nil => rfl
    | cons b us' =>
      rw [List.cons_append] at h
      simp only [noDoubleSpace, Bool.and_eq_true] at h ⊢
      exact ⟨by simpa using h.1, ih t h.2⟩

theorem canon_col_fixed (n : Nat) : ∀ l : Str, l.length ≤ n →
    spacesClean l = true → noDoubleSpace l = true → col false l = l := by
  induction n with
  | zero =>
    intro l hl _ _
    cases l with
    | nil => rfl
    | cons a rest => simp at hl
  | succ n ih =>
    intro l hl hc hnd
    cases l with
    | nil => rfl
    | cons a rest =>
      by_cases hs : isSpace a = true
      · have ha' : a = ' ' := by
          rw [spacesClean_cons, Bool.and_eq_true] at hc
          have h1 := hc.1
          rw [Bool.or_eq_true] at h1
          rcases h1 with h | h
          · rw [hs] at h; simp at h
          · simpa using h
        rw [col_false_cons_space a rest hs]
        cases rest with
        | nil => rw [ha']; rfl
        | cons b rest' =>
          have hb : isSpace b = false := by
            have := noDoubleSpace_head a (b :: rest') hnd hs
            simpa [headSpace] using this
          rw [col_cons_not_space true b rest' (by simp [hb]), ha']
          have hfix : col false rest' = rest' := by
            refine ih rest' ?_ ?_ ?_
            · simp only [List.length_cons] at hl
              omega
            · exact spacesClean_tail b rest' (spacesClean_tail a (b :: rest') hc)
            · exact noDoubleSpace_tail b rest' (noDoubleSpace_tail a (b :: rest') hnd)
          rw [hfix]
      · rw [col_cons_not_space false a rest hs]
        congr 1
        refine ih rest ?_ (spacesClean_tail a rest hc) (noDoubleSpace_tail a rest hnd)
        simp only [List.length_cons] at hl
        omega


theorem dropWhile_head_not (p : Char → Bool) (l : Str) :
    ∀ ch rest, l.dropWhile p = ch :: rest → p ch = false := by
  induction l with
  | nil => intro ch rest h; simp at h
  | cons c cs ih =>
    intro ch rest h
    by_cases hc : p c = true
    · rw [List.dropWhile_cons_of_pos hc] at h
      exact ih ch rest h
    · rw [List.dropWhile_cons_of_neg hc] at h
      injection h with h1 h2
      subst h1
      simpa using hc

theorem dropWhile_idem (p : Char → Bool) (l : Str) :
    List.dropWhile p (l.dropWhile p) = l.dropWhile p := by
  cases h : l.dropWhile p with
  | nil => rfl
  | cons ch rest =>
    rw [List.dropWhile_cons_of_neg]
    rw [dropWhile_head_not p l ch rest h]
    simp

theorem trimEnd_idem (p : Char → Bool) (l : Str) :
    trimEnd p (trimEnd p l) = trimEnd p l := by
  unfold trimEnd
  rw [List.reverse_reverse, dropWhile_idem]

theorem dropWhile_trimEnd (p : Char → Bool) (u : Str) (h : u.dropWhile p = u) :
    List.dropWhile p (trimEnd p u) = trimEnd p u := by
  have hdec := trimEnd_decomp p u
  cases htu : trimEnd p u with
  | nil => rfl
  | cons ch rest =>
    rw [List.dropWhile_cons_of_neg]
    have hu : u = ch :: (rest ++ (u.reverse.takeWhile p).reverse) := by
      conv_lhs => rw [hdec, htu]
      rfl
    have : u.dropWhile p = ch :: (rest ++ (u.reverse.takeWhile p).reverse) := by
      rw [h]; exact hu
    rw [dropWhile_head_not p u ch _ this]
    simp

theorem strip2_idem (l : Str) : strip2 (strip2 l) = strip2 l := by
  unfold strip2
  rw [dropWhile_trimEnd isStrip _ (dropWhile_idem isStrip l), trimEnd_idem]


/-- Claim C10 (amended).  On inputs containing no opening parenthesis the
normalizer is idempotent: its output is already whitespace-collapsed and
stripped, so a second pass changes nothing.  (With parentheses present a
removed group can make two remaining fragments join into a new marker
parenthetical which only a second pass would remove — see the
counterexample.) -/
theorem c10_normalize_idem (s : Str) (h : '(' ∉ s) :
    normalize_text (normalize_text s) = normalize_text s := by
  have hWnp : '(' ∉ col false s := by
    intro hmm
    rcases col_mem s false '(' hmm with h' | h'
    · exact absurd h' (by decide)
    · exact h h'
  have hWfix : col false (col false s) = col false s :=
    canon_col_fixed (col false s).length _ le_rfl (col_spacesClean s false)
      (col_noDouble s).1
  have e1 : normalize_text s = strip2 (col false s) := by
    rw [norm_alt s, spGo_id_of_no_lparen _ hWnp, hWfix]
  have htsub : ∀ ch ∈ strip2 (col false s), ch ∈ col false s := by
    intro ch hch
    unfold strip2 at hch
    exact mem_dropWhile_sub _ _ ch (mem_trimEnd_sub _ _ ch hch)
  have htnp : '(' ∉ strip2 (col false s) := fun hmm => hWnp (htsub _ hmm)
  have htclean : spacesClean (strip2 (col false s)) = true :=
    spacesClean_subset _ _ htsub (col_spacesClean s false)
  have htnd : noDoubleSpace (strip2 (col false s)) = true := by
    have h1 : noDoubleSpace ((col false s).dropWhile isStrip) = true := by
      have h0 := (col_noDouble s).1
      rw [← List.takeWhile_append_dropWhile (p := isStrip) (l := col false s)] at h0
      exact noDouble_append_right _ _ h0
    rw [trimEnd_decomp isStrip ((col false s).dropWhile isStrip)] at h1
    exact noDouble_append_left _ _ h1
  have htfix : col false (strip2 (col false s)) = strip2 (col false s) :=
    canon_col_fixed (strip2 (col false s)).length _ le_rfl htclean htnd
  rw [e1, norm_alt (strip2 (col false s)), htfix, spGo_id_of_no_lparen _ htnp, htfix,
    strip2_idem]

/-- Witness for C10 at a concrete parenthesis-free dish string. -/
theorem c10_witness :
    normalize_text (normalize_text (str "Gf Chicken  and  Rice - ")) =
      normalize_text (str "Gf Chicken  and  Rice - ") :=
  c10_normalize_idem (str "Gf Chicken  and  Rice - ") (by decide)

/-- Counterexample to C10 as stated: deleting the inner "(gf)" group of
"(conta(gf)ins x)" joins the fragments into "(contains x)", a marker
parenthetical the single regex pass never rescans; a second application of
the normalizer removes it, so the normalizer is not idempotent. -/
theorem c10_counterexample :
    normalize_text (normalize_text (str "(conta(gf)ins x)")) ≠
      normalize_text (str "(conta(gf)ins x)") := by decide

end HUDS
